import Mathlib

/-!
Shallow embedding of `src/main.py` (a keyword-frequency counter for
Clausewitz-style configuration files) together with theorems settling the
specification claims.  Text is modelled as `List Char` / `String`
(Lean 4.14 strings are lists of Unicode scalar values, matching Python's
`str`), counts as `Nat`, and the fallible streaming loop as `Except`.
-/

namespace TokenCounter

/-- Whitespace set of Python `str` methods (`str.split()` with no argument
splits on runs of these; `float()` strips them at both ends).  This is the
complete list for the whole Unicode range as implemented by CPython. -/
def isPySpace (c : Char) : Bool :=
  [9, 10, 11, 12, 13, 28, 29, 30, 31, 32, 0x85, 0xA0, 0x1680,
   0x2000, 0x2001, 0x2002, 0x2003, 0x2004, 0x2005, 0x2006, 0x2007, 0x2008,
   0x2009, 0x200A, 0x2028, 0x2029, 0x202F, 0x205F, 0x3000].contains c.toNat

/-- Embeds Python's regex class `\w` for `str` patterns (line 44 of the
source, `word_pattern = re.compile(r'\w+')`): alphanumeric characters in the
sense of `str.isalnum` plus the underscore.  The table of non-ASCII word
characters is exact for code points below `0x100` (Latin-1: the ordinal
indicators, the micro sign, superscript digits, vulgar fractions and the
Latin-1 letters).  Word characters above Latin-1 are outside the modelled
character range, and the theorems below only evaluate this predicate on
Latin-1 text. -/
def isWordChar (c : Char) : Bool :=
  c.isAlphanum || c = '_' ||
  [0xAA, 0xB2, 0xB3, 0xB5, 0xB9, 0xBA, 0xBC, 0xBD, 0xBE].contains c.toNat ||
  (decide (0xC0 ≤ c.toNat) && decide (c.toNat ≤ 0xD6)) ||
  (decide (0xD8 ≤ c.toNat) && decide (c.toNat ≤ 0xF6)) ||
  (decide (0xF8 ≤ c.toNat) && decide (c.toNat ≤ 0xFF))

/-- Full match of `word_pattern` (`\w+`) against a whole token, as in
`word_pattern.fullmatch(token)` at line 99 of the source: the token is
non-empty and every one of its characters is a word character. -/
def wordFullmatch (l : List Char) : Bool :=
  !l.isEmpty && l.all isWordChar

/-- Consumes the continuation of a digit run the way CPython's
`float()` does after PEP 515: further digits, with single underscores
allowed only between two digits; returns the unconsumed remainder. -/
def chewDigits : List Char → List Char
  | [] => []
  | c :: r =>
    if c = '_' then
      match r with
      | c2 :: r2 => if c2.isDigit then chewDigits r2 else c :: r
      | [] => c :: r
    else if c.isDigit then chewDigits r else c :: r

/-- Consumes a digit run (at least one ASCII digit, single underscores
allowed between digits); `none` when the input does not start with a
digit, otherwise the remainder after the maximal run. -/
def scanDigitRun : List Char → Option (List Char)
  | c :: r => if c.isDigit then some (chewDigits r) else none
  | [] => none

/-- Consumes the mantissa of a decimal literal: `digits [. digits?]` or
`. digits`; returns the remainder, or `none` when no mantissa is present. -/
def parseBody (l : List Char) : Option (List Char) :=
  match scanDigitRun l with
  | some r =>
    match r with
    | '.' :: r2 =>
      match scanDigitRun r2 with
      | some r3 => some r3
      | none => some r2
    | _ => some r
  | none =>
    match l with
    | '.' :: r2 => scanDigitRun r2
    | _ => none

/-- Consumes an optional exponent `([eE] [+-]? digits)`; when the exponent
cannot be completed nothing is consumed, so the caller's end-of-input test
fails exactly as CPython's parser does. -/
def parseExp : List Char → List Char
  | e :: r =>
    if e = 'e' || e = 'E' then
      match r with
      | s :: r2 =>
        if s = '+' || s = '-' then
          match scanDigitRun r2 with
          | some r3 => r3
          | none => e :: r
        else
          match scanDigitRun (s :: r2) with
          | some r3 => r3
          | none => e :: r
      | [] => e :: r
    else e :: r
  | [] => []

/-- ASCII lower-casing, as CPython applies when comparing against the
special float spellings. -/
def asciiLower (c : Char) : Char :=
  if 'A' ≤ c ∧ c ≤ 'Z' then Char.ofNat (c.toNat + 32) else c

/-- The special spellings `inf`, `infinity`, `nan` accepted by `float()`,
compared case-insensitively. -/
def matchInfNan (l : List Char) : Bool :=
  let low := l.map asciiLower
  low = "inf".data || low = "infinity".data || low = "nan".data

/-- Strips one optional leading sign. -/
def stripSign : List Char → List Char
  | [] => []
  | c :: r => if c = '+' || c = '-' then r else c :: r

/-- Strips Python whitespace from both ends. -/
def stripWs (l : List Char) : List Char :=
  ((l.dropWhile isPySpace).reverse.dropWhile isPySpace).reverse

/-- Acceptance of `float(s)` on a `str` argument, embedded from CPython's
string-to-double conversion: optional surrounding whitespace, an optional
sign, then either one of the special spellings `inf`/`infinity`/`nan`
(case-insensitive) or a decimal literal `digits [. digits?] | . digits`
with an optional exponent, where digit runs may contain single underscores
between digits.  ASCII digits are the only decimal digits below `0x100`;
non-Latin-1 decimal digits, which CPython also accepts, are outside the
modelled character range. -/
def pyFloatValid (s : List Char) : Bool :=
  let t := stripSign (stripWs s)
  if matchInfNan t then true
  else
    match parseBody t with
    | some r => decide (parseExp r = [])
    | none => false

/-- Embeds `is_number` (lines 10-16 of the source): `float(s)` succeeds. -/
def is_number (s : String) : Bool :=
  pyFloatValid s.data

/-- Step 1 of the per-line cleaning (line 62 of the source),
`line.split('#', 1)[0]`: everything strictly before the first `#`. -/
def removeComment (l : List Char) : List Char :=
  l.takeWhile (fun c => c ≠ '#')

/-- Worker for quoted-string removal.  The first argument holds, reversed,
the characters read since an as-yet-unclosed opening quote (`none` when
outside quotes).  A closed pair together with its contents becomes a single
space; an opening quote that never closes is emitted literally together
with the characters after it, since the regex cannot match there. -/
def rqAux : Option (List Char) → List Char → List Char
  | none, [] => []
  | none, c :: r => if c = '"' then rqAux (some []) r else c :: rqAux none r
  | some acc, [] => '"' :: acc.reverse
  | some acc, c :: r =>
    if c = '"' then ' ' :: rqAux none r else rqAux (some (c :: acc)) r

/-- Step 2 of the per-line cleaning (lines 40 and 65 of the source),
`re.compile(r'"[^"]*"').sub(' ', line)`: each maximal double-quoted
substring (non-greedy, no escape handling) is replaced by one space. -/
def removeQuoted (l : List Char) : List Char :=
  rqAux none l

/-- Single-character text replacement, as `str.replace` with
one-character arguments. -/
def replaceChar (a b : Char) (l : List Char) : List Char :=
  l.map (fun c => if c = a then b else c)

/-- Step 3 of the per-line cleaning (line 68 of the source),
`line.replace('=', ' ').replace('{', ' ').replace('}', ' ')`. -/
def replaceOps (l : List Char) : List Char :=
  replaceChar '\x7d' ' ' (replaceChar '\x7b' ' ' (replaceChar '=' ' ' l))

/-- Worker for whitespace splitting: the first argument is the reversed
current run of non-whitespace characters. -/
def splitWsAux : List Char → List Char → List (List Char)
  | acc, [] => if acc.isEmpty then [] else [acc.reverse]
  | acc, c :: r =>
    if isPySpace c then
      if acc.isEmpty then splitWsAux [] r else acc.reverse :: splitWsAux [] r
    else splitWsAux (c :: acc) r

/-- Step 4 of the per-line cleaning (line 71 of the source),
`line.split()`: split on runs of Python whitespace, dropping empty
pieces. -/
def splitWs (l : List Char) : List (List Char) :=
  splitWsAux [] l

/-- Steps 1-3 of the per-line cleaning, in the order of lines 62-68 of the
source: comment removal, then quoted-string removal, then structural
operator neutralization. -/
def cleanLine (l : List Char) : List Char :=
  replaceOps (removeQuoted (removeComment l))

/-- The whitespace-delimited candidate tokens of one input line
(lines 62-71 of the source). -/
def tokenize (line : String) : List String :=
  (splitWs (cleanLine line.data)).map (fun t => ⟨t⟩)

/-- Embeds `Counter[token] += 1` (line 100): a present key's count is
bumped in place, a new key is appended at the end (Python dicts preserve
insertion order). -/
def incr : List (String × Nat) → String → List (String × Nat)
  | [], t => [(t, 1)]
  | (k, v) :: r, t => if k = t then (k, v + 1) :: r else (k, v) :: incr r t

/-- Per-token processing (lines 74-100 of the source): skip empty tokens,
skip structural-operator residue, skip numbers, and count the token when
the whole of it matches `\w+`. -/
def countToken (m : List (String × Nat)) (t : String) : List (String × Nat) :=
  if t = "" then m
  else if t = "=" || t = "\x7b" || t = "\x7d" then m
  else if is_number t then m
  else if wordFullmatch t.data then incr m t
  else m

/-- Processing of one line: extract its candidate tokens and fold them
into the frequency map. -/
def processLine (m : List (String × Nat)) (line : String) : List (String × Nat) :=
  (tokenize line).foldl countToken m

/-- The frequency map accumulated over all lines, starting empty. -/
def processAll (lines : List String) : List (String × Nat) :=
  lines.foldl processLine []

/-- Strict lexicographic comparison of Python strings: code-point order,
a proper prefix being smaller. -/
def lexLt : List Char → List Char → Bool
  | [], [] => false
  | [], _ :: _ => true
  | _ :: _, [] => false
  | a :: as, b :: bs =>
    if a.toNat < b.toNat then true
    else if b.toNat < a.toNat then false
    else lexLt as bs

/-- Non-strict lexicographic comparison of Python strings. -/
def lexLe : List Char → List Char → Bool
  | [], _ => true
  | _ :: _, [] => false
  | a :: as, b :: bs =>
    if a.toNat < b.toNat then true
    else if b.toNat < a.toNat then false
    else lexLe as bs

/-- Sort key of line 118 of the source, `key=lambda item: (-item[1], item[0])`:
row `a` precedes row `b` when `a`'s count is larger, or the counts are equal
and `a`'s token is lexicographically no larger (code-point order, which is
how Python compares `str` values). -/
def rowLE (a b : String × Nat) : Prop :=
  b.2 < a.2 ∨ (a.2 = b.2 ∧ lexLe a.1.data b.1.data = true)

instance : DecidableRel rowLE := fun a b => by
  unfold rowLE; exact inferInstance

/-- Embeds `sorted_keywords` (line 118 of the source): the frequency map's
entries sorted by count descending, token ascending on ties.  The keys are
pairwise distinct, so the sort order is unique and any correct sorting
algorithm (here insertion sort, in Python Timsort) produces the same
list. -/
def sorted_keywords (m : List (String × Nat)) : List (String × Nat) :=
  List.insertionSort rowLE m

/-- The report rows written after the `Keyword,Count` header (lines 118 and
126 of the source), as a pure function of the input lines. -/
def report (lines : List String) : List (String × Nat) :=
  sorted_keywords (processAll lines)

/-- Progress state of the reading loop (lines 36-37 of the source):
`bytes_read`, `last_percent` (initially `-1`, hence an `Int`), and the
percentages printed so far, in order. -/
structure ProgState where
  bytes : Nat
  last : Int
  emits : List Nat
deriving DecidableEq

/-- Progress accounting for one line (lines 52-57 of the source):
`bytes_read` grows by the re-encoded byte length of the line,
`current_percent = int(bytes_read / total_size * 100)` is emitted exactly
when it exceeds `last_percent`.  A zero `total_size` makes the division
raise `ZeroDivisionError`, modelled as `Except.error`; the percentage is
modelled as the exact floor `bytes * 100 / total` (the source computes the
floor through double-precision division, which is monotone in
`bytes_read`, so the emission pattern properties are unaffected). -/
def progStep (total : Nat) (st : ProgState) (len : Nat) : Except Unit ProgState :=
  if total = 0 then .error ()
  else if st.last < (((st.bytes + len) * 100 / total : Nat) : Int) then
    .ok ⟨st.bytes + len, (((st.bytes + len) * 100 / total : Nat) : Int),
      st.emits ++ [(st.bytes + len) * 100 / total]⟩
  else .ok ⟨st.bytes + len, st.last, st.emits⟩

/-- State of one pass of the reading loop: the frequency map and the
progress state. -/
structure LoopState where
  counts : List (String × Nat)
  prog : ProgState
deriving DecidableEq

/-- One iteration of `for line in f` (lines 48-100 of the source): progress
accounting first, then keyword extraction on the same line.  Each input
line carries its re-encoded byte length `len(line.encode(encoding,
errors='ignore'))`, which depends on the external codec and is therefore
input data of the model. -/
def lineStep (total : Nat) (st : LoopState) (line : String × Nat) :
    Except Unit LoopState :=
  match progStep total st.prog line.2 with
  | .error e => .error e
  | .ok pr => .ok ⟨processLine st.counts line.1, pr⟩

/-- The state at the start of the loop: empty counter, zero bytes read,
`last_percent = -1`, nothing printed. -/
def initState : LoopState := ⟨[], ⟨0, -1, []⟩⟩

/-- The reading loop over the decoded lines. -/
def runLoopAux (total : Nat) : LoopState → List (String × Nat) → Except Unit LoopState
  | st, [] => .ok st
  | st, l :: ls =>
    match lineStep total st l with
    | .error e => .error e
    | .ok st2 => runLoopAux total st2 ls

/-- The reading loop started from the initial state. -/
def runLoop (total : Nat) (lines : List (String × Nat)) : Except Unit LoopState :=
  runLoopAux total initState lines

/-- Outcome of one invocation of `count_keywords`: early return on a
missing file (lines 28-30), early return with the encoding hint on any
exception while reading (lines 111-114), or the sorted rows plus the full
sequence of printed percentages (the loop's emissions followed by the
unconditional final `100` of line 104). -/
inductive RunResult where
  | notFound : RunResult
  | readError : String → RunResult
  | ok : List (String × Nat) → List Nat → RunResult
deriving DecidableEq

/-- The message printed by the generic exception handler (line 113 of the
source); the source text wraps the words encoding and windows-1252 in
single quotation marks, elided here. -/
def hintMsg : String :=
  "Try changing the encoding parameter. Common alternatives are windows-1252."

/-- Embeds `count_keywords` (lines 18-126 of the source).  `fileExists`
models the `os.path.exists` check; `lines` are the decoded lines paired
with their re-encoded byte lengths; `total` is `os.path.getsize`;
`errAfter = some k` models an I/O or decoding exception raised by the
stream after `k` lines were already consumed — the `except Exception`
handler then returns before any report is produced, so the partial counts
are dropped and the result does not depend on `k` or on the lines read. -/
def count_keywords (fileExists : Bool) (lines : List (String × Nat))
    (total : Nat) (errAfter : Option Nat) : RunResult :=
  if fileExists = false then .notFound
  else
    match errAfter with
    | some _ => .readError hintMsg
    | none =>
      match runLoop total lines with
      | .error _ => .readError hintMsg
      | .ok st => .ok (sorted_keywords st.counts) (st.prog.emits ++ [100])

/-- The report rows of a run, when one is produced. -/
def RunResult.rows : RunResult → Option (List (String × Nat))
  | .ok r _ => some r
  | _ => none

/-- The emitted progress percentages of a run, when it completes. -/
def RunResult.percents : RunResult → Option (List Nat)
  | .ok _ p => some p
  | _ => none

/-! Definitions written from the specification's words, for the refinement
claims; they are compared against the embedded source above. -/

/-- Written from the spec's words for claim C2: a full-token match of the
character class `[A-Za-z0-9_]+`, with no other characters present. -/
def asciiWordFullmatch (l : List Char) : Bool :=
  !l.isEmpty && l.all (fun c =>
    c.isDigit ||
    (decide ('A'.toNat ≤ c.toNat) && decide (c.toNat ≤ 'Z'.toNat)) ||
    (decide ('a'.toNat ≤ c.toNat) && decide (c.toNat ≤ 'z'.toNat)) ||
    c = '_')

/-- Remainder after a run of ASCII digits. -/
def dropDigits (l : List Char) : List Char :=
  l.dropWhile Char.isDigit

/-- One-or-more plain ASCII digits (no underscores); `none` when the input
does not start with a digit, otherwise the remainder. -/
def digits1 : List Char → Option (List Char)
  | c :: r => if c.isDigit then some (dropDigits r) else none
  | [] => none

/-- Mantissa of the spec's strict decimal grammar:
`digits [. digits?] | . digits`. -/
def specBody (l : List Char) : Option (List Char) :=
  match digits1 l with
  | some r =>
    match r with
    | '.' :: r2 =>
      match digits1 r2 with
      | some r3 => some r3
      | none => some r2
    | _ => some r
  | none =>
    match l with
    | '.' :: r2 => digits1 r2
    | _ => none

/-- Optional exponent of the spec's strict decimal grammar:
`([eE] [+-]? digits)`; consumes nothing when absent or incomplete. -/
def specExpPart : List Char → List Char
  | e :: r =>
    if e = 'e' || e = 'E' then
      match r with
      | s :: r2 =>
        if s = '+' || s = '-' then
          match digits1 r2 with
          | some r3 => r3
          | none => e :: r
        else
          match digits1 (s :: r2) with
          | some r3 => r3
          | none => e :: r
      | [] => e :: r
    else e :: r
  | [] => []

/-- Written from the spec's words for claim C3: the whole token is a valid
number under the standard decimal numeric-literal grammar, optionally
signed, integer or floating-point (`[+-]? (digits [. digits?] | . digits)
([eE] [+-]? digits)?`), with nothing else accepted. -/
def specNumericStrict (s : List Char) : Bool :=
  match specBody (stripSign s) with
  | some r => decide (specExpPart r = [])
  | none => false

/-- Membership in the digit-or-underscore class. -/
def isDU (c : Char) : Bool :=
  c.isDigit || c = '_'

/-- No two adjacent underscores. -/
def noDoubleU : List Char → Bool
  | [] => true
  | c :: r =>
    (if c = '_' then
      match r with
      | c2 :: _ => !decide (c2 = '_')
      | [] => true
     else true) && noDoubleU r

/-- Written from the amended spec's words: a digit run in which single
underscores may appear between two digits — every character is a digit or
an underscore, the run is non-empty, starts and ends with a digit, and no
two underscores are adjacent. -/
def underscoredDigits (l : List Char) : Bool :=
  !l.isEmpty && l.all isDU &&
  (match l.head? with | some c => c.isDigit | none => false) &&
  (match l.getLast? with | some c => c.isDigit | none => false) &&
  noDoubleU l

/-- An exponent marker. -/
def isExpMarker (c : Char) : Bool :=
  c = 'e' || c = 'E'

/-- Splits a list at the first character satisfying `p`, keeping that
character out of both halves; `none` when no character satisfies `p`. -/
def splitOnPred (p : Char → Bool) : List Char → List Char × Option (List Char)
  | [] => ([], none)
  | c :: r =>
    if p c then ([], some r)
    else (c :: (splitOnPred p r).1, (splitOnPred p r).2)

/-- Splits a token at its first exponent marker. -/
def splitOnExpMarker : List Char → List Char × Option (List Char) :=
  splitOnPred isExpMarker

/-- Splits a token at its first dot. -/
def splitOnDot : List Char → List Char × Option (List Char) :=
  splitOnPred (fun c => c = '.')

/-- Mantissa of the amended grammar: an underscored digit run, optionally
split by one dot, where the fractional part may be missing or empty only
when an integer part is present. -/
def mantissaOkU (m : List Char) : Bool :=
  match splitOnDot m with
  | (mi, none) => underscoredDigits mi
  | (mi, some mf) =>
    if mi.isEmpty then underscoredDigits mf
    else underscoredDigits mi && (mf.isEmpty || underscoredDigits mf)

/-- Exponent digits of the amended grammar: an optional sign followed by an
underscored digit run. -/
def expOkU (x : List Char) : Bool :=
  underscoredDigits (stripSign x)

/-- Written from the amended spec's words for claim C3: the strict decimal
grammar extended exactly as `float()` accepts - an optional sign followed
by either a special spelling `inf`, `infinity` or `nan` (case-insensitive)
or a decimal literal whose digit runs may contain single underscores
between digits. -/
def specNumericAmended (s : List Char) : Bool :=
  let t := stripSign s
  matchInfNan t ||
    (let p := splitOnExpMarker t
     mantissaOkU p.1 && (match p.2 with | some x => expOkU x | none => true))

/-- The acceptance test of lines 74-100 as one predicate: the token is
non-empty, not a structural operator, not a number, and matches `\w+`. -/
def accepted (t : String) : Bool :=
  !decide (t = "") &&
  !(decide (t = "=") || decide (t = "\x7b") || decide (t = "\x7d")) &&
  !is_number t && wordFullmatch t.data

/-- Number of accepted occurrences of `t` in a token sequence. -/
def occCount (t : String) : List String → Nat
  | [] => 0
  | s :: r => (if accepted s = true ∧ s = t then 1 else 0) + occCount t r

/-- Lookup in the association-list frequency map. -/
def lookupC : List (String × Nat) → String → Option Nat
  | [], _ => none
  | (k, v) :: r, t => if k = t then some v else lookupC r t

/-- Accepted-occurrence count of a token over the whole input. -/
def acceptedCount (lines : List String) (t : String) : Nat :=
  occCount t (lines.flatMap tokenize)

/-- Loop invariant of the progress state: printed percentages are strictly
increasing, each is at most `last_percent`, and `last_percent` is at most
the percentage of the bytes consumed so far. -/
def ProgInv (total : Nat) (ps : ProgState) : Prop :=
  List.Chain' (· < ·) ps.emits ∧
  (∀ e ∈ ps.emits, (e : Int) ≤ ps.last) ∧
  ps.last ≤ ((ps.bytes * 100 / total : Nat) : Int)

/-- Continuation of a digit run: a word of the shape `((_)? digit)*`
(underscore always followed by a digit).  Helper relating `chewDigits` to
the declarative grammar. -/
def tailRun : List Char → Bool
  | [] => true
  | c :: r =>
    if c = '_' then
      match r with
      | c2 :: r2 => c2.isDigit && tailRun r2
      | [] => false
    else c.isDigit && tailRun r

/-- Stop condition of the greedy digit scanner: the remainder cannot
extend the run - it is empty, or starts with a non-digit that is not an
underscore followed by a digit. -/
def noExtend : List Char → Bool
  | [] => true
  | c :: r =>
    if c.isDigit then false
    else if c = '_' then
      match r with
      | c2 :: _ => !c2.isDigit
      | [] => true
    else true

/-- Match of a pattern against the head of a character list. -/
def headMatches : List Char → List Char → Bool
  | [], _ => true
  | _ :: _, [] => false
  | a :: as, b :: bs => a = b && headMatches as bs

/-- Occurrence of a pattern anywhere inside a character list. -/
def hasSub (pat : List Char) : List Char → Bool
  | [] => headMatches pat []
  | c :: r => headMatches pat (c :: r) || hasSub pat r

/-- The word `encoding` occurs in the message. -/
def mentionsEncoding (s : String) : Bool :=
  hasSub "encoding".data s.data

/-! Order lemmas for the sort key. -/

theorem lexLe_total : ∀ a b : List Char, lexLe a b = true ∨ lexLe b a = true
  | [], _ => Or.inl rfl
  | _ :: _, [] => Or.inr rfl
  | a :: as, b :: bs => by
    simp only [lexLe]
    rcases Nat.lt_trichotomy a.toNat b.toNat with h | h | h
    · simp [h]
    · simp only [h, Nat.lt_irrefl, if_false, if_true]
      exact lexLe_total as bs
    · simp [h, Nat.lt_asymm h]

theorem lexLe_trans : ∀ a b c : List Char,
    lexLe a b = true → lexLe b c = true → lexLe a c = true
  | [], _, _, _, _ => rfl
  | _ :: _, [], _, h, _ => by simp [lexLe] at h
  | _ :: _, _ :: _, [], _, h => by simp [lexLe] at h
  | a :: as, b :: bs, c :: cs, h1, h2 => by
    simp only [lexLe] at h1 h2 ⊢
    rcases Nat.lt_trichotomy a.toNat b.toNat with hab | hab | hab
    · rcases Nat.lt_trichotomy b.toNat c.toNat with hbc | hbc | hbc
      · simp [Nat.lt_trans hab hbc]
      · simp [hbc ▸ hab]
      · rw [if_neg (Nat.lt_asymm hbc), if_pos hbc] at h2; simp at h2
    · rw [if_neg (by omega), if_neg (by omega)] at h1
      rcases Nat.lt_trichotomy b.toNat c.toNat with hbc | hbc | hbc
      · simp [hab ▸ hbc]
      · rw [if_neg (by omega), if_neg (by omega)] at h2
        rw [if_neg (by omega), if_neg (by omega)]
        exact lexLe_trans as bs cs h1 h2
      · rw [if_neg (Nat.lt_asymm hbc), if_pos hbc] at h2; simp at h2
    · rw [if_neg (Nat.lt_asymm hab), if_pos hab] at h1; simp at h1

theorem lexLe_antisymm : ∀ a b : List Char,
    lexLe a b = true → lexLe b a = true → a = b
  | [], [], _, _ => rfl
  | [], _ :: _, _, h => by simp [lexLe] at h
  | _ :: _, [], h, _ => by simp [lexLe] at h
  | a :: as, b :: bs, h1, h2 => by
    simp only [lexLe] at h1 h2
    rcases Nat.lt_trichotomy a.toNat b.toNat with hab | hab | hab
    · simp [hab, Nat.lt_asymm hab] at h2
    · have ha : a = b := Char.ext (UInt32.ext hab)
      subst ha
      simp only [Nat.lt_irrefl, if_false] at h1 h2
      exact congrArg (a :: ·) (lexLe_antisymm as bs h1 h2)
    · simp [hab, Nat.lt_asymm hab] at h1

theorem lexLe_of_ne_of_not_lt : ∀ a b : List Char,
    lexLe a b = true → a ≠ b → lexLt a b = true
  | [], [], _, hne => absurd rfl hne
  | [], _ :: _, _, _ => rfl
  | _ :: _, [], h, _ => by simp [lexLe] at h
  | a :: as, b :: bs, h, hne => by
    simp only [lexLe] at h
    simp only [lexLt]
    rcases Nat.lt_trichotomy a.toNat b.toNat with hab | hab | hab
    · simp [hab]
    · have ha : a = b := Char.ext (UInt32.ext hab)
      subst ha
      simp only [Nat.lt_irrefl, if_false] at h ⊢
      exact lexLe_of_ne_of_not_lt as bs h (fun hc => hne (congrArg (a :: ·) hc))
    · simp [hab, Nat.lt_asymm hab] at h

instance : IsTotal (String × Nat) rowLE where
  total a b := by
    unfold rowLE
    rcases Nat.lt_trichotomy a.2 b.2 with h | h | h
    · exact Or.inr (Or.inl h)
    · rcases lexLe_total a.1.data b.1.data with h' | h'
      · exact Or.inl (Or.inr ⟨h, h'⟩)
      · exact Or.inr (Or.inr ⟨h.symm, h'⟩)
    · exact Or.inl (Or.inl h)

instance : IsTrans (String × Nat) rowLE where
  trans a b c hab hbc := by
    unfold rowLE at *
    rcases hab with h1 | ⟨h1, h1'⟩
    · rcases hbc with h2 | ⟨h2, _⟩
      · exact Or.inl (h2.trans h1)
      · exact Or.inl (h2 ▸ h1)
    · rcases hbc with h2 | ⟨h2, h2'⟩
      · exact Or.inl (h1 ▸ h2)
      · exact Or.inr ⟨h1.trans h2, lexLe_trans _ _ _ h1' h2'⟩

/-! Properties of the whitespace tokenizer. -/

theorem splitWsAux_mem : ∀ (l acc t : List Char),
    (∀ c ∈ acc, isPySpace c = false) →
    t ∈ splitWsAux acc l →
    t ≠ [] ∧ ∀ c ∈ t, isPySpace c = false ∧ (c ∈ acc ∨ c ∈ l)
  | [], acc, t, hacc, ht => by
    simp only [splitWsAux] at ht
    by_cases h : acc.isEmpty
    · simp [h] at ht
    · rw [if_neg h, List.mem_singleton] at ht
      subst ht
      refine ⟨by simpa [List.isEmpty_iff] using h, fun c hc => ?_⟩
      rw [List.mem_reverse] at hc
      exact ⟨hacc c hc, Or.inl hc⟩
  | b :: r, acc, t, hacc, ht => by
    simp only [splitWsAux] at ht
    by_cases hb : isPySpace b
    · rw [if_pos hb] at ht
      by_cases h : acc.isEmpty
      · rw [if_pos h] at ht
        obtain ⟨h1, h2⟩ := splitWsAux_mem r [] t (by simp) ht
        exact ⟨h1, fun c hc => ⟨(h2 c hc).1,
          Or.inr (List.mem_cons_of_mem b ((h2 c hc).2.resolve_left (by simp)))⟩⟩
      · rw [if_neg h, List.mem_cons] at ht
        rcases ht with ht | ht
        · subst ht
          refine ⟨by simpa [List.isEmpty_iff] using h, fun c hc => ?_⟩
          rw [List.mem_reverse] at hc
          exact ⟨hacc c hc, Or.inl hc⟩
        · obtain ⟨h1, h2⟩ := splitWsAux_mem r [] t (by simp) ht
          exact ⟨h1, fun c hc => ⟨(h2 c hc).1,
            Or.inr (List.mem_cons_of_mem b ((h2 c hc).2.resolve_left (by simp)))⟩⟩
    · rw [if_neg hb] at ht
      obtain ⟨h1, h2⟩ := splitWsAux_mem r (b :: acc) t
        (by intro c hc
            rcases List.mem_cons.mp hc with h | h
            · subst h; simpa using hb
            · exact hacc c h) ht
      refine ⟨h1, fun c hc => ⟨(h2 c hc).1, ?_⟩⟩
      rcases (h2 c hc).2 with h | h
      · rcases List.mem_cons.mp h with h | h
        · exact Or.inr (h ▸ List.mem_cons_self b r)
        · exact Or.inl h
      · exact Or.inr (List.mem_cons_of_mem b h)

theorem mem_splitWs {l t : List Char} (ht : t ∈ splitWs l) :
    t ≠ [] ∧ ∀ c ∈ t, isPySpace c = false ∧ c ∈ l := by
  obtain ⟨h1, h2⟩ := splitWsAux_mem l [] t (by simp) ht
  exact ⟨h1, fun c hc => ⟨(h2 c hc).1, (h2 c hc).2.resolve_left (by simp)⟩⟩

theorem mem_replaceOps_ne {l : List Char} {c : Char} (hc : c ∈ replaceOps l) :
    c ≠ '=' ∧ c ≠ '\x7b' ∧ c ≠ '\x7d' := by
  simp only [replaceOps, replaceChar, List.mem_map] at hc
  obtain ⟨c2, ⟨c1, ⟨c0, -, rfl⟩, rfl⟩, rfl⟩ := hc
  by_cases h0 : c0 = '='
  · subst h0; decide
  · by_cases h1 : c0 = '\x7b'
    · subst h1; decide
    · by_cases h2 : c0 = '\x7d'
      · subst h2; decide
      · rw [if_neg h0, if_neg h1, if_neg h2]
        exact ⟨h0, h1, h2⟩

/-- Every candidate token of a line is a non-empty string whose characters
all come from the cleaned line; in particular none is empty or a structural
operator, so the defensive discard branches of lines 76-81 never fire. -/
theorem tokenize_tokens {line t : String} (ht : t ∈ tokenize line) :
    t ≠ "" ∧ t ≠ "=" ∧ t ≠ "\x7b" ∧ t ≠ "\x7d" := by
  simp only [tokenize, List.mem_map] at ht
  obtain ⟨d, hd, rfl⟩ := ht
  obtain ⟨h1, h2⟩ := mem_splitWs hd
  have hops : ∀ c ∈ d, c ≠ '=' ∧ c ≠ '\x7b' ∧ c ≠ '\x7d' := by
    intro c hc
    exact mem_replaceOps_ne ((h2 c hc).2)
  refine ⟨?_, ?_, ?_, ?_⟩ <;> intro h <;> rw [String.ext_iff] at h <;> simp at h
  · exact h1 h
  · cases d with
    | nil => exact h1 rfl
    | cons c r => exact (hops c (List.mem_cons_self c r)).1 (by simp_all)
  · cases d with
    | nil => exact h1 rfl
    | cons c r => exact (hops c (List.mem_cons_self c r)).2.1 (by simp_all)
  · cases d with
    | nil => exact h1 rfl
    | cons c r => exact (hops c (List.mem_cons_self c r)).2.2 (by simp_all)

/-! Properties of the cleaning order: comments, then quotes. -/

theorem removeComment_append {a : List Char} (ha : '#' ∉ a) (b : List Char) :
    removeComment (a ++ '#' :: b) = a := by
  induction a with
  | nil => simp [removeComment, List.takeWhile]
  | cons c r ih =>
    have hc : c ≠ '#' := fun h => ha (h ▸ List.mem_cons_self c r)
    have ih2 := ih (fun h => ha (List.mem_cons_of_mem c h))
    simp only [removeComment, List.cons_append, List.takeWhile_cons] at ih2 ⊢
    simp_all

theorem rqAux_closed : ∀ (u : List Char), '"' ∉ u → ∀ (acc v : List Char),
    rqAux (some acc) (u ++ '"' :: v) = ' ' :: rqAux none v
  | [], _, acc, v => by simp [rqAux]
  | c :: r, hu, acc, v => by
    have hc : c ≠ '"' := fun h => hu (h ▸ List.mem_cons_self c r)
    rw [List.cons_append]
    show rqAux (some acc) (c :: (r ++ '"' :: v)) = ' ' :: rqAux none v
    rw [show rqAux (some acc) (c :: (r ++ '"' :: v)) =
        rqAux (some (c :: acc)) (r ++ '"' :: v) by simp [rqAux, hc]]
    exact rqAux_closed r (fun h => hu (List.mem_cons_of_mem c h)) (c :: acc) v

theorem removeQuoted_pair {u : List Char} (hu : '"' ∉ u) (v : List Char) :
    removeQuoted ('"' :: (u ++ '"' :: v)) = ' ' :: removeQuoted v := by
  show rqAux none ('"' :: (u ++ '"' :: v)) = ' ' :: rqAux none v
  rw [show rqAux none ('"' :: (u ++ '"' :: v)) =
      rqAux (some []) (u ++ '"' :: v) by simp [rqAux]]
  exact rqAux_closed u hu [] v

/-! Correctness of the frequency counter. -/

theorem countToken_eq (m : List (String × Nat)) (t : String) :
    countToken m t = if accepted t then incr m t else m := by
  unfold countToken accepted
  by_cases h0 : t = "" <;> by_cases h1 : t = "=" <;> by_cases h2 : t = "\x7b" <;>
    by_cases h3 : t = "\x7d" <;> by_cases h4 : is_number t = true <;>
    by_cases h5 : wordFullmatch t.data = true <;>
    simp_all

theorem lookupC_incr_self : ∀ (m : List (String × Nat)) (t : String),
    lookupC (incr m t) t = some ((lookupC m t).getD 0 + 1)
  | [], t => by simp [incr, lookupC]
  | (k, v) :: r, t => by
    by_cases h : k = t
    · simp [incr, lookupC, h]
    · simp [incr, lookupC, h, lookupC_incr_self r t]

theorem lookupC_incr_other : ∀ (m : List (String × Nat)) (t s : String),
    s ≠ t → lookupC (incr m t) s = lookupC m s
  | [], t, s, hst => by
    have hts : ¬t = s := fun h => hst h.symm
    simp [incr, lookupC, hts]
  | (k, v) :: r, t, s, hst => by
    have hts : ¬t = s := fun hh => hst hh.symm
    by_cases h : k = t
    · have hks : ¬k = s := fun hh => hst ((hh ▸ h : s = t))
      simp [incr, h, lookupC, hks, hts]
    · by_cases h2 : k = s <;>
        simp [incr, lookupC, h, h2, hst, lookupC_incr_other r t s hst]

theorem keys_incr : ∀ (m : List (String × Nat)) (t : String),
    (incr m t).map Prod.fst =
      if t ∈ m.map Prod.fst then m.map Prod.fst else m.map Prod.fst ++ [t]
  | [], t => by simp [incr]
  | (k, v) :: r, t => by
    by_cases h : k = t
    · simp [incr, h]
    · have hne : ¬t = k := fun hh => h hh.symm
      simp only [incr, if_neg h, List.map_cons, keys_incr r t, List.mem_cons]
      by_cases hm : t ∈ r.map Prod.fst <;> simp [hm, hne]

theorem nodup_keys_incr {m : List (String × Nat)} (t : String)
    (h : (m.map Prod.fst).Nodup) : ((incr m t).map Prod.fst).Nodup := by
  rw [keys_incr]
  by_cases hm : t ∈ m.map Prod.fst
  · simpa [hm]
  · rw [if_neg hm]
    refine List.Nodup.append h (List.nodup_singleton t) ?_
    intro a ha hat
    rw [List.mem_singleton] at hat
    exact hm (hat ▸ ha)

theorem mem_iff_lookupC : ∀ {m : List (String × Nat)},
    (m.map Prod.fst).Nodup → ∀ {t : String} {c : Nat},
    ((t, c) ∈ m ↔ lookupC m t = some c)
  | [], _, t, c => by simp [lookupC]
  | (k, v) :: r, h, t, c => by
    simp only [List.map_cons, List.nodup_cons] at h
    by_cases hk : k = t
    · subst hk
      rw [lookupC, if_pos rfl]
      simp only [List.mem_cons, Option.some.injEq, Prod.mk.injEq, true_and]
      constructor
      · rintro (rfl | hmem)
        · rfl
        · exact absurd (List.mem_map_of_mem Prod.fst hmem) h.1
      · rintro rfl
        exact Or.inl rfl
    · rw [lookupC, if_neg hk, ← mem_iff_lookupC h.2]
      simp only [List.mem_cons, Prod.mk.injEq]
      constructor
      · rintro (⟨h1, -⟩ | hmem)
        · exact absurd h1.symm hk
        · exact hmem
      · exact Or.inr

theorem lookupC_foldl : ∀ (ts : List String) (m : List (String × Nat)) (t : String),
    lookupC (ts.foldl countToken m) t =
      match lookupC m t with
      | some v => some (v + occCount t ts)
      | none => if occCount t ts = 0 then none else some (occCount t ts)
  | [], m, t => by cases h : lookupC m t <;> simp [occCount, h]
  | s :: ts, m, t => by
    rw [List.foldl_cons, countToken_eq, lookupC_foldl ts _ t]
    by_cases ha : accepted s
    · rw [if_pos ha]
      by_cases hst : s = t
      · subst hst
        rw [lookupC_incr_self]
        cases h : lookupC m s <;>
          simp [occCount, ha, h, Nat.add_comm, Nat.add_assoc, Nat.add_left_comm]
      · rw [lookupC_incr_other m s t (fun h => hst h.symm)]
        cases h : lookupC m t <;> simp [occCount, ha, hst, h]
    · rw [if_neg ha]
      cases h : lookupC m t <;> simp [occCount, ha, h]

theorem nodup_keys_foldl : ∀ (ts : List String) (m : List (String × Nat)),
    (m.map Prod.fst).Nodup → ((ts.foldl countToken m).map Prod.fst).Nodup
  | [], m, h => h
  | s :: ts, m, h => by
    rw [List.foldl_cons, countToken_eq]
    by_cases ha : accepted s
    · rw [if_pos ha]
      exact nodup_keys_foldl ts _ (nodup_keys_incr s h)
    · rw [if_neg ha]
      exact nodup_keys_foldl ts m h

/-- The whole-file fold is the fold over the concatenated token lists. -/
theorem processAll_eq_foldl : ∀ (lines : List String) (m : List (String × Nat)),
    lines.foldl processLine m = (lines.flatMap tokenize).foldl countToken m
  | [], m => rfl
  | l :: ls, m => by
    rw [List.foldl_cons, List.flatMap_cons, List.foldl_append]
    exact processAll_eq_foldl ls _

theorem nodup_keys_processAll (lines : List String) :
    ((processAll lines).map Prod.fst).Nodup := by
  rw [processAll, processAll_eq_foldl]
  exact nodup_keys_foldl _ [] (by simp)

/-! Properties of the sorted report. -/

theorem report_perm (lines : List String) :
    List.Perm (report lines) (processAll lines) :=
  List.perm_insertionSort rowLE (processAll lines)

theorem report_sorted (lines : List String) : List.Sorted rowLE (report lines) :=
  List.sorted_insertionSort rowLE (processAll lines)

theorem nodup_keys_report (lines : List String) :
    ((report lines).map Prod.fst).Nodup :=
  (((report_perm lines).map Prod.fst).nodup_iff).mpr (nodup_keys_processAll lines)

/-! Properties of the progress loop. -/

theorem runLoopAux_ok (total : Nat) (h0 : total ≠ 0) :
    ∀ (lines : List (String × Nat)) (st : LoopState), ProgInv total st.prog →
    ∃ st2, runLoopAux total st lines = .ok st2 ∧ ProgInv total st2.prog ∧
      st2.prog.bytes = st.prog.bytes + (lines.map Prod.snd).sum
  | [], st, hinv => ⟨st, rfl, hinv, by simp⟩
  | l :: ls, st, hinv => by
    obtain ⟨hchain, hle, hlast⟩ := hinv
    have hmono : ((st.prog.bytes * 100 / total : Nat) : Int) ≤
        (((st.prog.bytes + l.2) * 100 / total : Nat) : Int) := by
      have := Nat.div_le_div_right (c := total)
        (Nat.mul_le_mul_right 100 (Nat.le_add_right st.prog.bytes l.2))
      exact_mod_cast this
    by_cases hemit : st.prog.last < (((st.prog.bytes + l.2) * 100 / total : Nat) : Int)
    · have hstep : lineStep total st l = .ok
          ⟨processLine st.counts l.1,
            ⟨st.prog.bytes + l.2, ((st.prog.bytes + l.2) * 100 / total : Nat),
              st.prog.emits ++ [(st.prog.bytes + l.2) * 100 / total]⟩⟩ := by
        unfold lineStep progStep
        rw [if_neg h0, if_pos hemit]
      have hinv2 : ProgInv total
          ⟨st.prog.bytes + l.2, ((st.prog.bytes + l.2) * 100 / total : Nat),
            st.prog.emits ++ [(st.prog.bytes + l.2) * 100 / total]⟩ := by
        refine ⟨?_, ?_, le_refl _⟩
        · refine List.Chain'.append hchain
            (List.chain'_singleton ((st.prog.bytes + l.2) * 100 / total)) ?_
          intro x hx y hy
          rw [List.head?_cons, Option.mem_some_iff] at hy
          subst hy
          have hx2 := hle x (List.mem_of_mem_getLast? hx)
          have hxp : (x : Int) < (((st.prog.bytes + l.2) * 100 / total : Nat) : Int) :=
            lt_of_le_of_lt hx2 hemit
          exact_mod_cast hxp
        · intro e he
          rcases List.mem_append.mp he with he | he
          · exact le_of_lt (lt_of_le_of_lt (hle e he) hemit)
          · rw [List.mem_singleton] at he
            subst he
            exact le_refl _
      obtain ⟨st2, h2, h3, h4⟩ := runLoopAux_ok total h0 ls
        ⟨processLine st.counts l.1,
          ⟨st.prog.bytes + l.2, ((st.prog.bytes + l.2) * 100 / total : Nat),
            st.prog.emits ++ [(st.prog.bytes + l.2) * 100 / total]⟩⟩ hinv2
      refine ⟨st2, ?_, h3, ?_⟩
      · rw [runLoopAux, hstep]
        exact h2
      · rw [h4]
        simp [Nat.add_assoc]
    · have hstep : lineStep total st l = .ok
          ⟨processLine st.counts l.1,
            ⟨st.prog.bytes + l.2, st.prog.last, st.prog.emits⟩⟩ := by
        unfold lineStep progStep
        rw [if_neg h0, if_neg hemit]
      have hinv2 : ProgInv total ⟨st.prog.bytes + l.2, st.prog.last, st.prog.emits⟩ :=
        ⟨hchain, hle, le_trans hlast hmono⟩
      obtain ⟨st2, h2, h3, h4⟩ := runLoopAux_ok total h0 ls
        ⟨processLine st.counts l.1,
          ⟨st.prog.bytes + l.2, st.prog.last, st.prog.emits⟩⟩ hinv2
      refine ⟨st2, ?_, h3, ?_⟩
      · rw [runLoopAux, hstep]
        exact h2
      · rw [h4]
        simp [Nat.add_assoc]

theorem mem_processAll_iff (lines : List String) (t : String) (c : Nat) :
    (t, c) ∈ processAll lines ↔ (acceptedCount lines t = c ∧ 0 < c) := by
  rw [mem_iff_lookupC (nodup_keys_processAll lines), processAll, processAll_eq_foldl,
    lookupC_foldl]
  show (if occCount t (lines.flatMap tokenize) = 0 then none
      else some (occCount t (lines.flatMap tokenize))) = some c ↔ _
  unfold acceptedCount
  by_cases h : occCount t (lines.flatMap tokenize) = 0
  · simp [h]; omega
  · simp only [if_neg h, Option.some.injEq]
    constructor
    · rintro rfl; exact ⟨rfl, Nat.pos_of_ne_zero h⟩
    · rintro ⟨rfl, _⟩; rfl

/-! Equivalence of the float scanner with the amended declarative grammar. -/

theorem dropWhile_eq_self_of {p : Char → Bool} : ∀ {l : List Char},
    (∀ c ∈ l, p c = false) → l.dropWhile p = l
  | [], _ => rfl
  | c :: r, h => by
    rw [List.dropWhile_cons, if_neg (by simp [h c (List.mem_cons_self c r)])]

theorem stripWs_id {l : List Char} (h : ∀ c ∈ l, isPySpace c = false) :
    stripWs l = l := by
  unfold stripWs
  rw [dropWhile_eq_self_of h,
    dropWhile_eq_self_of (fun c hc => h c (List.mem_reverse.mp hc)),
    List.reverse_reverse]

theorem isDU_not_marker {c : Char} (h : isDU c = true) : isExpMarker c = false := by
  by_cases he : c = 'e'
  · subst he; exact absurd h (by decide)
  · by_cases hE : c = 'E'
    · subst hE; exact absurd h (by decide)
    · simp [isExpMarker, he, hE]

theorem isDU_ne_dot {c : Char} (h : isDU c = true) : ¬c = '.' := by
  intro hd
  subst hd
  exact absurd h (by decide)

theorem marker_facts {e : Char} (h : isExpMarker e = true) :
    e.isDigit = false ∧ e ≠ '_' ∧ e ≠ '.' ∧ e ≠ '+' ∧ e ≠ '-' := by
  have h2 : e = 'e' ∨ e = 'E' := by simpa [isExpMarker] using h
  rcases h2 with he | he <;> subst he <;> decide

theorem stripSign_sign {s : Char} (hs : (s = '+' || s = '-') = true)
    (x : List Char) : stripSign (s :: x) = x := by
  simp [stripSign, hs]

theorem stripSign_id_cons {s : Char} (hs : (s = '+' || s = '-') = false)
    (x : List Char) : stripSign (s :: x) = s :: x := by
  simp only [stripSign, hs, Bool.false_eq_true, if_false]

theorem noExtend_nil : noExtend [] = true := rfl

theorem noExtend_cons {c : Char} (r : List Char) (h1 : c.isDigit = false)
    (h2 : c ≠ '_') : noExtend (c :: r) = true := by
  simp only [noExtend]
  rw [if_neg (by simp [h1]), if_neg h2]

theorem noExtend_dot (r : List Char) : noExtend ('.' :: r) = true :=
  noExtend_cons r (by decide) (by decide)

theorem noExtend_marker {e : Char} (he : isExpMarker e = true) (r : List Char) :
    noExtend (e :: r) = true :=
  noExtend_cons r (marker_facts he).1 (marker_facts he).2.1

theorem und_ne_nil {d : List Char} (h : underscoredDigits d = true) : d ≠ [] := by
  intro hd
  subst hd
  exact absurd h (by decide)

theorem und_mem_isDU {d : List Char} (h : underscoredDigits d = true) :
    ∀ c ∈ d, isDU c = true := by
  simp only [underscoredDigits, Bool.and_eq_true, List.all_eq_true] at h
  exact h.1.1.1.2

theorem splitOnPred_none_of {p : Char → Bool} : ∀ {m : List Char},
    (∀ c ∈ m, p c = false) → splitOnPred p m = (m, none)
  | [], _ => rfl
  | c :: r, h => by
    rw [splitOnPred, if_neg (by simp [h c (List.mem_cons_self c r)]),
      splitOnPred_none_of (fun d hd => h d (List.mem_cons_of_mem c hd))]

theorem splitOnPred_some_of {p : Char → Bool} {e : Char} (he : p e = true)
    (x : List Char) : ∀ {m : List Char}, (∀ c ∈ m, p c = false) →
    splitOnPred p (m ++ e :: x) = (m, some x)
  | [], _ => by rw [List.nil_append, splitOnPred, if_pos he]
  | c :: r, h => by
    rw [List.cons_append, splitOnPred,
      if_neg (by simp [h c (List.mem_cons_self c r)]),
      splitOnPred_some_of he x (fun d hd => h d (List.mem_cons_of_mem c hd))]

theorem splitOnPred_inv {p : Char → Bool} : ∀ {t m : List Char}
    {o : Option (List Char)}, splitOnPred p t = (m, o) →
    (∀ c ∈ m, p c = false) ∧ (o = none → t = m) ∧
    (∀ x, o = some x → ∃ e, p e = true ∧ t = m ++ e :: x)
  | [], m, o, h => by
    rw [splitOnPred] at h
    injection h with h1 h2
    subst h1
    subst h2
    exact ⟨by simp, fun _ => rfl, fun x hx => by cases hx⟩
  | c :: r, m, o, h => by
    rw [splitOnPred] at h
    by_cases hc : p c
    · rw [if_pos hc] at h
      injection h with h1 h2
      subst h1
      subst h2
      refine ⟨by simp, ?_, ?_⟩
      · intro hn
        exact Option.noConfusion hn
      · intro x hx
        injection hx with hx
        subst hx
        exact ⟨c, hc, rfl⟩
    · rw [if_neg hc] at h
      have hr : splitOnPred p r = ((splitOnPred p r).1, (splitOnPred p r).2) := rfl
      obtain ⟨ih1, ih2, ih3⟩ := splitOnPred_inv (p := p) (t := r) hr
      injection h with h1 h2
      subst h1
      subst h2
      refine ⟨?_, ?_, ?_⟩
      · intro d hd
        rcases List.mem_cons.mp hd with hd | hd
        · subst hd; simpa using hc
        · exact ih1 d hd
      · intro hn
        rw [← ih2 hn]
      · intro x hx
        obtain ⟨e, he1, he2⟩ := ih3 x hx
        exact ⟨e, he1, by rw [List.cons_append, ← he2]⟩

theorem digit_ne_underscore {c : Char} (h : c.isDigit = true) : c ≠ '_' := by
  intro hh
  subst hh
  exact absurd h (by decide)

theorem und_cons_iff : ∀ (c : Char) (d : List Char),
    underscoredDigits (c :: d) = (c.isDigit && tailRun d) := by
  intro c d
  induction d using tailRun.induct generalizing c with
  | case1 =>
    by_cases hc : c.isDigit
    · have hcu := digit_ne_underscore hc
      simp [underscoredDigits, tailRun, noDoubleU, isDU, hc, hcu]
    · simp [underscoredDigits, tailRun, hc]
  | case2 c2 r2 ih =>
    have htr : tailRun ('_' :: c2 :: r2) = (c2.isDigit && tailRun r2) := rfl
    rw [htr]
    by_cases hc : c.isDigit
    · have hcu := digit_ne_underscore hc
      by_cases h2u : c2 = '_'
      · subst h2u
        simp [underscoredDigits, noDoubleU, hc, hcu]
      · rw [← ih c2]
        apply Bool.coe_iff_coe.mp
        simp only [underscoredDigits, noDoubleU, isDU, List.all_cons,
          List.isEmpty_cons, List.head?_cons, List.getLast?_cons_cons,
          Bool.and_eq_true, Bool.not_eq_eq_eq_not, Bool.or_eq_true,
          decide_eq_true_eq, hc, hcu, h2u, if_true, if_false]
        simp [hcu, h2u]
        tauto
    · simp [underscoredDigits, hc]
  | case3 =>
    by_cases hc : c.isDigit
    · simp [underscoredDigits, tailRun, noDoubleU, hc]
    · simp [underscoredDigits, tailRun, hc]
  | case4 c2 r2 h2u ih =>
    have htr : tailRun (c2 :: r2) = (c2.isDigit && tailRun r2) := by
      cases r2 with
      | nil =>
        simp only [tailRun.eq_def]
        rw [if_neg h2u]
      | cons c3 r3 =>
        rw [tailRun.eq_2, if_neg h2u]
    rw [htr]
    by_cases hc : c.isDigit
    · have hcu := digit_ne_underscore hc
      rw [← ih c2]
      apply Bool.coe_iff_coe.mp
      simp only [underscoredDigits, noDoubleU, isDU, List.all_cons,
        List.isEmpty_cons, List.head?_cons, List.getLast?_cons_cons,
        Bool.and_eq_true, Bool.or_eq_true, decide_eq_true_eq, hc, hcu, h2u,
        if_true, if_false]
      simp [hcu, h2u]
      tauto
    · simp [underscoredDigits, hc]

theorem tailRun_cons_ne {c : Char} (hc : ¬c = '_') (r : List Char) :
    tailRun (c :: r) = (c.isDigit && tailRun r) := by
  cases r with
  | nil =>
    simp only [tailRun.eq_def]
    rw [if_neg hc]
  | cons c3 r3 =>
    rw [tailRun.eq_2, if_neg hc]

theorem noExtend_elim {c : Char} {r : List Char} (h : noExtend (c :: r) = true) :
    c.isDigit = false ∧ (c = '_' → ∀ c2 r2, r = c2 :: r2 → c2.isDigit = false) := by
  simp only [noExtend.eq_def] at h
  by_cases hd : c.isDigit = true
  · rw [if_pos hd] at h
    cases h
  · refine ⟨by simpa using hd, ?_⟩
    intro hu c2 r2 hr
    subst hu
    subst hr
    rw [if_neg hd, if_pos rfl] at h
    simpa using h

theorem chew_noExtend {r : List Char} (h : noExtend r = true) :
    chewDigits r = r := by
  cases r with
  | nil => rfl
  | cons c r2 =>
    obtain ⟨hd, hu⟩ := noExtend_elim h
    cases r2 with
    | nil =>
      rw [chewDigits.eq_3]
      by_cases hc : c = '_'
      · rw [if_pos hc]
      · rw [if_neg hc, if_neg (by simp [hd])]
    | cons c2 r3 =>
      rw [chewDigits.eq_2]
      by_cases hc : c = '_'
      · rw [if_pos hc, if_neg (by simp [hu hc c2 r3 rfl])]
      · rw [if_neg hc, if_neg (by simp [hd])]

theorem chew_decomp : ∀ (l : List Char),
    ∃ d, l = d ++ chewDigits l ∧ tailRun d = true ∧
      noExtend (chewDigits l) = true := by
  intro l
  induction l using chewDigits.induct with
  | case1 => exact ⟨[], rfl, rfl, rfl⟩
  | case2 c2 r2 hd ih =>
    obtain ⟨d, h1, h2, h3⟩ := ih
    have he : chewDigits ('_' :: c2 :: r2) = chewDigits r2 := by
      rw [chewDigits.eq_2, if_pos rfl, if_pos hd]
    refine ⟨'_' :: c2 :: d, ?_, ?_, ?_⟩
    · rw [he, List.cons_append, List.cons_append, ← h1]
    · rw [show tailRun ('_' :: c2 :: d) = (c2.isDigit && tailRun d) from rfl]
      simp [hd, h2]
    · rw [he]
      exact h3
  | case3 c2 r2 hd =>
    have hd2 : c2.isDigit = false := by simpa using hd
    have he : chewDigits ('_' :: c2 :: r2) = '_' :: c2 :: r2 := by
      rw [chewDigits.eq_2, if_pos rfl, if_neg hd]
    refine ⟨[], by rw [he]; rfl, rfl, ?_⟩
    rw [he]
    simp only [noExtend.eq_def]
    simp [hd2]
  | case4 =>
    refine ⟨[], ?_, rfl, ?_⟩
    · rw [chewDigits.eq_3, if_pos rfl]
      rfl
    · rw [chewDigits.eq_3, if_pos rfl]
      decide
  | case5 c r hcu hd ih =>
    obtain ⟨d, h1, h2, h3⟩ := ih
    have he : chewDigits (c :: r) = chewDigits r := by
      cases r with
      | nil => rw [chewDigits.eq_3, if_neg hcu, if_pos hd]
      | cons c2 r2 => rw [chewDigits.eq_2, if_neg hcu, if_pos hd]
    refine ⟨c :: d, ?_, ?_, ?_⟩
    · rw [he, List.cons_append, ← h1]
    · rw [tailRun_cons_ne hcu]
      simp [hd, h2]
    · rw [he]
      exact h3
  | case6 c r hcu hd =>
    have hd2 : c.isDigit = false := by simpa using hd
    have he : chewDigits (c :: r) = c :: r := by
      cases r with
      | nil => rw [chewDigits.eq_3, if_neg hcu, if_neg hd]
      | cons c2 r2 => rw [chewDigits.eq_2, if_neg hcu, if_neg hd]
    refine ⟨[], by rw [he]; rfl, rfl, ?_⟩
    rw [he]
    exact noExtend_cons r hd2 hcu

theorem chew_of {d : List Char} (h : tailRun d = true) : ∀ {r : List Char},
    noExtend r = true → chewDigits (d ++ r) = r := by
  induction d using tailRun.induct with
  | case1 =>
    intro r hr
    rw [List.nil_append]
    exact chew_noExtend hr
  | case2 c2 r2 ih =>
    intro r hr
    have h2 : c2.isDigit = true ∧ tailRun r2 = true := by
      rw [show tailRun ('_' :: c2 :: r2) = (c2.isDigit && tailRun r2) from rfl] at h
      simpa using h
    rw [List.cons_append, List.cons_append, chewDigits.eq_2, if_pos rfl,
      if_pos h2.1]
    exact ih h2.2 hr
  | case3 =>
    exact absurd h (by decide)
  | case4 c r2 hcu ih =>
    intro r hr
    have h2 : c.isDigit = true ∧ tailRun r2 = true := by
      rw [tailRun_cons_ne hcu] at h
      simpa using h
    cases r2 with
    | nil =>
      rw [List.cons_append, List.nil_append]
      cases r with
      | nil =>
        rw [chewDigits.eq_3, if_neg hcu, if_pos h2.1]
        rfl
      | cons c2 r3 =>
        rw [chewDigits.eq_2, if_neg hcu, if_pos h2.1]
        exact chew_noExtend hr
    | cons c3 r4 =>
      rw [List.cons_append, List.cons_append, chewDigits.eq_2, if_neg hcu,
        if_pos h2.1, ← List.cons_append]
      exact ih h2.2 hr

theorem scanDigitRun_some_decomp {l r : List Char} (h : scanDigitRun l = some r) :
    ∃ d, underscoredDigits d = true ∧ l = d ++ r ∧ noExtend r = true := by
  cases l with
  | nil => cases h
  | cons c rest =>
    rw [show scanDigitRun (c :: rest) =
        (if c.isDigit = true then some (chewDigits rest) else none) from rfl] at h
    by_cases hd : c.isDigit = true
    · rw [if_pos hd] at h
      injection h with h
      obtain ⟨d0, hd0, hd1, hd2⟩ := chew_decomp rest
      refine ⟨c :: d0, ?_, ?_, ?_⟩
      · rw [und_cons_iff]
        simp [hd, hd1]
      · rw [List.cons_append, ← h, ← hd0]
      · rw [← h]
        exact hd2
    · rw [if_neg hd] at h
      cases h

theorem scanDigitRun_of {d r : List Char} (hd : underscoredDigits d = true)
    (hr : noExtend r = true) : scanDigitRun (d ++ r) = some r := by
  cases d with
  | nil => exact absurd hd (by decide)
  | cons c d0 =>
    have h2 : c.isDigit = true ∧ tailRun d0 = true := by
      rw [und_cons_iff] at hd
      simpa using hd
    rw [List.cons_append,
      show scanDigitRun (c :: (d0 ++ r)) =
        (if c.isDigit = true then some (chewDigits (d0 ++ r)) else none) from rfl,
      if_pos h2.1, chew_of h2.2 hr]

theorem parseExp_marker_ok {e : Char} (he : (e = 'e' || e = 'E') = true)
    {x : List Char} (hx : expOkU x = true) : parseExp (e :: x) = [] := by
  cases x with
  | nil => exact absurd hx (by decide)
  | cons s x2 =>
    rw [show parseExp (e :: s :: x2) =
        (if e = 'e' || e = 'E' then
          (if s = '+' || s = '-' then
            (match scanDigitRun x2 with | some r3 => r3 | none => e :: s :: x2)
          else
            (match scanDigitRun (s :: x2) with
             | some r3 => r3
             | none => e :: s :: x2))
        else e :: s :: x2) from rfl, if_pos he]
    by_cases hs : (s = '+' || s = '-') = true
    · have hx2 : underscoredDigits x2 = true := by
        unfold expOkU at hx
        rwa [stripSign_sign hs] at hx
      have hsc := scanDigitRun_of hx2 noExtend_nil
      rw [List.append_nil] at hsc
      rw [if_pos hs, hsc]
    · have hx2 : underscoredDigits (s :: x2) = true := by
        unfold expOkU at hx
        rwa [stripSign_id_cons (by simpa using hs)] at hx
      have hsc := scanDigitRun_of hx2 noExtend_nil
      rw [List.append_nil] at hsc
      rw [if_neg hs, hsc]

theorem parseExp_nil_inv : ∀ {r : List Char}, parseExp r = [] →
    r = [] ∨ ∃ e x, isExpMarker e = true ∧ r = e :: x ∧ expOkU x = true := by
  intro r h
  cases r with
  | nil => exact Or.inl rfl
  | cons e r4 =>
    right
    by_cases he : (e = 'e' || e = 'E') = true
    · cases r4 with
      | nil =>
        rw [show parseExp [e] = (if e = 'e' || e = 'E' then [e] else [e]) from rfl,
          if_pos he] at h
        cases h
      | cons s r2 =>
        rw [show parseExp (e :: s :: r2) =
            (if e = 'e' || e = 'E' then
              (if s = '+' || s = '-' then
                (match scanDigitRun r2 with | some r3 => r3 | none => e :: s :: r2)
              else
                (match scanDigitRun (s :: r2) with
                 | some r3 => r3
                 | none => e :: s :: r2))
            else e :: s :: r2) from rfl, if_pos he] at h
        by_cases hs : (s = '+' || s = '-') = true
        · rw [if_pos hs] at h
          cases hscan : scanDigitRun r2 with
          | some r3 =>
            simp only [hscan] at h
            subst h
            obtain ⟨d, hd1, hd2, -⟩ := scanDigitRun_some_decomp hscan
            rw [List.append_nil] at hd2
            refine ⟨e, s :: r2, he, rfl, ?_⟩
            unfold expOkU
            rw [stripSign_sign hs, hd2]
            exact hd1
          | none =>
            simp only [hscan] at h
            cases h
        · rw [if_neg hs] at h
          cases hscan : scanDigitRun (s :: r2) with
          | some r3 =>
            simp only [hscan] at h
            subst h
            obtain ⟨d, hd1, hd2, -⟩ := scanDigitRun_some_decomp hscan
            rw [List.append_nil] at hd2
            refine ⟨e, s :: r2, he, rfl, ?_⟩
            unfold expOkU
            rw [stripSign_id_cons (by simpa using hs), hd2]
            exact hd1
          | none =>
            simp only [hscan] at h
            cases h
    · exfalso
      cases r4 with
      | nil =>
        rw [show parseExp [e] = (if e = 'e' || e = 'E' then [e] else [e]) from rfl,
          if_neg he] at h
        cases h
      | cons s r2 =>
        rw [show parseExp (e :: s :: r2) =
            (if e = 'e' || e = 'E' then
              (if s = '+' || s = '-' then
                (match scanDigitRun r2 with | some r3 => r3 | none => e :: s :: r2)
              else
                (match scanDigitRun (s :: r2) with
                 | some r3 => r3
                 | none => e :: s :: r2))
            else e :: s :: r2) from rfl, if_neg he] at h
        cases h

theorem parseBody_eq (t : List Char) : parseBody t =
    (match scanDigitRun t with
      | some r1 =>
        (match r1 with
         | '.' :: r2 =>
           (match scanDigitRun r2 with
            | some r3 => some r3
            | none => some r2)
         | _ => some r1)
      | none =>
        (match t with
         | '.' :: r2 => scanDigitRun r2
         | _ => none)) := rfl

theorem parseBody_some_inv {t r : List Char} (h : parseBody t = some r) :
    (∃ d, underscoredDigits d = true ∧ noExtend r = true ∧ t = d ++ r) ∨
    (∃ d1 d2, underscoredDigits d1 = true ∧ underscoredDigits d2 = true ∧
      noExtend r = true ∧ t = d1 ++ '.' :: (d2 ++ r)) ∨
    (∃ d1, underscoredDigits d1 = true ∧ scanDigitRun r = none ∧
      t = d1 ++ '.' :: r) ∨
    (∃ d2, underscoredDigits d2 = true ∧ noExtend r = true ∧
      t = '.' :: (d2 ++ r)) := by
  rw [parseBody_eq] at h
  have h2 := h
  clear h
  cases hscan : scanDigitRun t with
  | some r1 =>
    simp only [hscan] at h2
    obtain ⟨d, hd1, hd2, hd3⟩ := scanDigitRun_some_decomp hscan
    split at h2
    · rename_i r2
      cases hscan2 : scanDigitRun r2 with
      | some r3 =>
        simp only [hscan2] at h2
        injection h2 with h2
        subst h2
        obtain ⟨d2, he1, he2, he3⟩ := scanDigitRun_some_decomp hscan2
        exact Or.inr (Or.inl ⟨d, d2, hd1, he1, he3, by rw [hd2, he2]⟩)
      | none =>
        simp only [hscan2] at h2
        injection h2 with h2
        subst h2
        exact Or.inr (Or.inr (Or.inl ⟨d, hd1, hscan2, hd2⟩))
    · injection h2 with h2
      subst h2
      exact Or.inl ⟨d, hd1, hd3, hd2⟩
  | none =>
    simp only [hscan] at h2
    split at h2
    · rename_i r2
      obtain ⟨d2, he1, he2, he3⟩ := scanDigitRun_some_decomp h2
      exact Or.inr (Or.inr (Or.inr ⟨d2, he1, he3, by rw [he2]⟩))
    · cases h2

theorem mantissaOkU_no_dot {d : List Char} (h : underscoredDigits d = true) :
    mantissaOkU d = true := by
  unfold mantissaOkU splitOnDot
  rw [splitOnPred_none_of
    (fun c hc => decide_eq_false (isDU_ne_dot (und_mem_isDU h c hc)))]
  exact h

theorem mantissaOkU_dot {d1 d2 : List Char} (h1 : underscoredDigits d1 = true)
    (h2 : (d2.isEmpty || underscoredDigits d2) = true) :
    mantissaOkU (d1 ++ '.' :: d2) = true := by
  unfold mantissaOkU splitOnDot
  rw [splitOnPred_some_of (by decide) d2
    (fun c hc => decide_eq_false (isDU_ne_dot (und_mem_isDU h1 c hc)))]
  show (if d1.isEmpty = true then underscoredDigits d2
    else underscoredDigits d1 && (d2.isEmpty || underscoredDigits d2)) = true
  rw [if_neg (fun hh => und_ne_nil h1 (List.isEmpty_iff.mp hh))]
  simp [h1, h2]

theorem mantissaOkU_dot_head {d2 : List Char} (h2 : underscoredDigits d2 = true) :
    mantissaOkU ('.' :: d2) = true := by
  unfold mantissaOkU splitOnDot
  rw [show splitOnPred (fun c => decide (c = '.')) ('.' :: d2) = ([], some d2)
    from by rw [splitOnPred, if_pos (by decide)]]
  show (if ([] : List Char).isEmpty = true then underscoredDigits d2
    else underscoredDigits [] && (d2.isEmpty || underscoredDigits d2)) = true
  simp [h2]

theorem py_accept_decl {t r : List Char} (hpb : parseBody t = some r)
    (hpe : parseExp r = []) :
    (mantissaOkU (splitOnExpMarker t).1 &&
      (match (splitOnExpMarker t).2 with
       | some x => expOkU x
       | none => true)) = true := by
  have hr := parseExp_nil_inv hpe
  have main : ∃ M, t = M ++ r ∧ (∀ c ∈ M, isExpMarker c = false) ∧
      mantissaOkU M = true := by
    rcases parseBody_some_inv hpb with ⟨d, h1, h2, h3⟩ |
      ⟨d1, d2, h1, h2, h3, h4⟩ | ⟨d1, h1, h2, h3⟩ | ⟨d2, h1, h2, h3⟩
    · exact ⟨d, h3, fun c hc => isDU_not_marker (und_mem_isDU h1 c hc),
        mantissaOkU_no_dot h1⟩
    · refine ⟨d1 ++ '.' :: d2, ?_, ?_, mantissaOkU_dot h1 (by simp [h2])⟩
      · rw [h4, List.append_assoc, List.cons_append]
      · intro c hc
        rcases List.mem_append.mp hc with hc | hc
        · exact isDU_not_marker (und_mem_isDU h1 c hc)
        · rcases List.mem_cons.mp hc with rfl | hc
          · decide
          · exact isDU_not_marker (und_mem_isDU h2 c hc)
    · refine ⟨d1 ++ ['.'], ?_, ?_, mantissaOkU_dot h1 (by simp)⟩
      · rw [h3, List.append_assoc]
        rfl
      · intro c hc
        rcases List.mem_append.mp hc with hc | hc
        · exact isDU_not_marker (und_mem_isDU h1 c hc)
        · rw [List.mem_singleton] at hc
          subst hc
          decide
    · refine ⟨'.' :: d2, ?_, ?_, mantissaOkU_dot_head h1⟩
      · rw [h3, List.cons_append]
      · intro c hc
        rcases List.mem_cons.mp hc with rfl | hc
        · decide
        · exact isDU_not_marker (und_mem_isDU h1 c hc)
  obtain ⟨M, hM1, hM2, hM3⟩ := main
  subst hM1
  rcases hr with rfl | ⟨e, x, he, rfl, hx⟩
  · show (mantissaOkU (splitOnExpMarker (M ++ [])).1 && _) = true
    rw [List.append_nil]
    unfold splitOnExpMarker
    rw [splitOnPred_none_of hM2]
    simp [hM3]
  · unfold splitOnExpMarker
    rw [splitOnPred_some_of he x hM2]
    simp [hM3, hx]

theorem parseBody_mantissa {M rest : List Char} (hm : mantissaOkU M = true)
    (hshape : rest = [] ∨ (∃ x, rest = 'e' :: x) ∨ (∃ x, rest = 'E' :: x)) :
    parseBody (M ++ rest) = some rest := by
  have hrest : noExtend rest = true := by
    rcases hshape with rfl | ⟨x, rfl⟩ | ⟨x, rfl⟩
    · rfl
    · exact noExtend_cons x (by decide) (by decide)
    · exact noExtend_cons x (by decide) (by decide)
  have hscn : scanDigitRun rest = none := by
    rcases hshape with rfl | ⟨x, rfl⟩ | ⟨x, rfl⟩ <;> rfl
  obtain ⟨mi, o, hsd⟩ : ∃ mi o, splitOnDot M = (mi, o) := ⟨_, _, Prod.mk.eta.symm⟩
  obtain ⟨hnodot, hdnone, hdsome⟩ :=
    splitOnPred_inv (p := fun c => decide (c = '.')) (t := M) hsd
  unfold mantissaOkU at hm
  simp only [hsd] at hm
  cases o with
  | none =>
    have hM : M = mi := hdnone rfl
    have hund : underscoredDigits mi = true := hm
    rw [hM]
    rw [parseBody_eq, scanDigitRun_of hund hrest]
    rcases hshape with rfl | ⟨x, rfl⟩ | ⟨x, rfl⟩ <;> rfl
  | some mf =>
    obtain ⟨e2, he1, he2⟩ := hdsome mf rfl
    have hedot : e2 = '.' := by simpa using he1
    subst hedot
    have hmr : (if mi.isEmpty = true then underscoredDigits mf
        else underscoredDigits mi && (mf.isEmpty || underscoredDigits mf)) =
        true := hm
    by_cases hmi : mi.isEmpty = true
    · rw [if_pos hmi] at hmr
      have hMe : M = '.' :: mf := by
        rw [he2, List.isEmpty_iff.mp hmi, List.nil_append]
      rw [hMe, List.cons_append,
        show parseBody ('.' :: (mf ++ rest)) = scanDigitRun (mf ++ rest) from rfl,
        scanDigitRun_of hmr hrest]
    · rw [if_neg hmi] at hmr
      obtain ⟨hm1, hm2⟩ := Bool.and_eq_true_iff.mp hmr
      rcases Bool.or_eq_true_iff.mp hm2 with hmf | hmf
      · have hmfe : mf = [] := List.isEmpty_iff.mp hmf
        subst hmfe
        rw [he2, List.append_assoc]
        show parseBody (mi ++ '.' :: rest) = some rest
        rw [parseBody_eq, scanDigitRun_of hm1 (noExtend_dot rest)]
        show (match scanDigitRun rest with
          | some r3 => some r3
          | none => some rest) = some rest
        rw [hscn]
      · rw [he2, List.append_assoc]
        show parseBody (mi ++ '.' :: (mf ++ rest)) = some rest
        rw [parseBody_eq, scanDigitRun_of hm1 (noExtend_dot (mf ++ rest))]
        show (match scanDigitRun (mf ++ rest) with
          | some r3 => some r3
          | none => some (mf ++ rest)) = some rest
        rw [scanDigitRun_of hmf hrest]

theorem decl_accept_py {t : List Char}
    (h : (mantissaOkU (splitOnExpMarker t).1 &&
      (match (splitOnExpMarker t).2 with
       | some x => expOkU x
       | none => true)) = true) :
    ∃ r, parseBody t = some r ∧ parseExp r = [] := by
  obtain ⟨hm, hrest⟩ := Bool.and_eq_true_iff.mp h
  have hpair0 : splitOnExpMarker t =
      ((splitOnExpMarker t).1, (splitOnExpMarker t).2) := Prod.mk.eta.symm
  obtain ⟨hnomark, hnone, hsome⟩ :=
    splitOnPred_inv (p := isExpMarker) (t := t) hpair0
  cases ho : (splitOnExpMarker t).2 with
  | none =>
    refine ⟨[], ?_, rfl⟩
    have ht : t = (splitOnExpMarker t).1 ++ ([] : List Char) := by
      rw [List.append_nil]
      exact hnone ho
    rw [ht]
    exact parseBody_mantissa hm (Or.inl rfl)
  | some x =>
    obtain ⟨e, he1, he2⟩ := hsome x ho
    have hexp : expOkU x = true := by
      simp only [ho] at hrest
      exact hrest
    have he3 : e = 'e' ∨ e = 'E' := by simpa [isExpMarker] using he1
    refine ⟨e :: x, ?_, parseExp_marker_ok he1 hexp⟩
    rw [he2]
    refine parseBody_mantissa hm ?_
    rcases he3 with rfl | rfl
    · exact Or.inr (Or.inl ⟨x, rfl⟩)
    · exact Or.inr (Or.inr ⟨x, rfl⟩)

/-- Amended numeric grammar equivalence: on whitespace-free text (candidate
tokens never contain whitespace), `is_number` accepts exactly the spec's
amended grammar. -/
theorem claim3_numeric_amended (s : String)
    (hws : ∀ c ∈ s.data, isPySpace c = false) :
    is_number s = specNumericAmended s.data := by
  unfold is_number pyFloatValid specNumericAmended
  rw [stripWs_id hws]
  by_cases hm : matchInfNan (stripSign s.data) = true
  · simp [hm]
  · have hmf : matchInfNan (stripSign s.data) = false := by
      simpa using hm
    rw [if_neg hm]
    show (match parseBody (stripSign s.data) with
        | some r => decide (parseExp r = [])
        | none => false) =
      (matchInfNan (stripSign s.data) ||
        (mantissaOkU (splitOnExpMarker (stripSign s.data)).1 &&
          (match (splitOnExpMarker (stripSign s.data)).2 with
           | some x => expOkU x
           | none => true)))
    rw [hmf, Bool.false_or]
    apply Bool.coe_iff_coe.mp
    constructor
    · intro hL
      cases hpb : parseBody (stripSign s.data) with
      | some r =>
        rw [hpb] at hL
        have hpe : parseExp r = [] := by simpa using hL
        exact py_accept_decl hpb hpe
      | none =>
        rw [hpb] at hL
        simp at hL
    · intro hR
      obtain ⟨r, h1, h2⟩ := decl_accept_py hR
      rw [h1]
      simpa using h2

theorem claim3_numeric_amended_witness :
    is_number "nan" = specNumericAmended "nan".data :=
  claim3_numeric_amended "nan" (by decide)

/-! Claim theorems. -/

/-- C1: for the four-line input `name = "Test Block"` / `size = 10` /
`color = { 1.0 0.5 0.2 }` / `name = enabled`, the pipeline produces a
report whose rows after the header are exactly (name,2), (color,1),
(enabled,1), (size,1), in that order.  The byte lengths are the UTF-8
lengths of the lines including their newline, totalling the file size. -/
theorem claim1_end_to_end_report :
    (count_keywords true
      [("name = \"Test Block\"\n", 20), ("size = 10\n", 10),
       ("color = \x7b 1.0 0.5 0.2 \x7d\n", 24), ("name = enabled\n", 15)]
      69 none).rows =
      some [("name", 2), ("color", 1), ("enabled", 1), ("size", 1)] := by
  decide

/-- C2 counterexample: the token `café` survives the cleaning steps and is
counted (Python's `\w` is Unicode-aware), yet it does not match
`[A-Za-z0-9_]+`, so the claim's only-if direction fails as stated. -/
theorem claim2_counterexample :
    ("café" ∈ tokenize "café = 1") ∧
    report ["café = 1"] = [("café", 1)] ∧
    asciiWordFullmatch "café".data = false := by
  refine ⟨by decide, by decide, by decide⟩

/-- C2 amended: a candidate token that survives the per-line cleaning
steps is counted as a keyword if and only if the entire token matches
Python's `\w+` (Unicode word characters: alphanumerics plus underscore,
which within ASCII is exactly `[A-Za-z0-9_]`) and the token is not
discarded as numeric; other tokens are dropped without being split or
sanitized (the map is returned unchanged).  The theorem is stated for
Latin-1 text, the range on which the embedded `\w` table is exact. -/
theorem claim2_amended_acceptance (m : List (String × Nat)) (line t : String)
    (ht : t ∈ tokenize line) (_hlat : ∀ c ∈ t.data, c.toNat < 256) :
    countToken m t =
      if wordFullmatch t.data && !is_number t then incr m t else m := by
  obtain ⟨h0, h1, h2, h3⟩ := tokenize_tokens ht
  unfold countToken
  rw [if_neg h0, if_neg (by simp [h1, h2, h3])]
  by_cases hn : is_number t
  · simp [hn]
  · by_cases hw : wordFullmatch t.data <;> simp [hn, hw]

theorem claim2_amended_acceptance_witness :
    ("café" ∈ tokenize "café = 1") ∧
    countToken [] "café" =
      (if wordFullmatch "café".data && !is_number "café" then
        incr [] "café" else []) :=
  ⟨by decide,
   claim2_amended_acceptance [] "café = 1" "café" (by decide) (by decide)⟩

/-- C3 counterexample: `float('nan')` succeeds, so the token `nan` is
discarded as numeric by the code although it is not a valid number under
the standard decimal numeric-literal grammar; the claim's if-and-only-if
fails as stated.  The concrete expectations of the claim themselves hold:
42, -3.14 and 0.5 are excluded and v2 is included. -/
theorem claim3_counterexample :
    is_number "nan" = true ∧ specNumericStrict "nan".data = false ∧
    wordFullmatch "nan".data = true ∧
    report ["nan 42 -3.14 0.5 v2"] = [("v2", 1)] := by
  refine ⟨by decide, by decide, by decide, by decide⟩

/-- C4: for every input line, comment removal happens before
quoted-string removal: everything from the first `#` on is discarded even
when that `#` occurs inside a double-quoted string (the prefix `a` below
is arbitrary and may contain unbalanced quotes), and only afterwards is
each remaining quoted substring replaced by a single space. -/
theorem claim4_comment_before_quotes :
    (∀ a b : List Char, '#' ∉ a →
      cleanLine (a ++ '#' :: b) = replaceOps (removeQuoted a)) ∧
    (∀ u v : List Char, '"' ∉ u →
      removeQuoted ('"' :: (u ++ '"' :: v)) = ' ' :: removeQuoted v) := by
  constructor
  · intro a b ha
    unfold cleanLine
    rw [removeComment_append ha]
  · intro u v hu
    exact removeQuoted_pair hu v

theorem claim4_witness :
    cleanLine ("say \"x".data ++ '#' :: "b\" c".data) =
      replaceOps (removeQuoted "say \"x".data) ∧
    removeQuoted ('"' :: ("a b".data ++ '"' :: " rest".data)) =
      ' ' :: removeQuoted " rest".data :=
  ⟨claim4_comment_before_quotes.1 _ _ (by decide),
   claim4_comment_before_quotes.2 _ _ (by decide)⟩

/-- C5: in the final report, every pair of adjacent rows is strictly
ordered: the first has the larger count, or equal counts and the strictly
lexicographically smaller token (code-point order); no two rows compare
equal. -/
theorem claim5_report_ordering (lines : List String) :
    List.Chain'
      (fun r1 r2 => r2.2 < r1.2 ∨ (r1.2 = r2.2 ∧ lexLt r1.1.data r2.1.data = true))
      (report lines) := by
  have hsorted : List.Pairwise rowLE (report lines) := report_sorted lines
  have hnodup := nodup_keys_report lines
  rw [List.Nodup, List.pairwise_map] at hnodup
  refine ((hsorted.and hnodup).imp ?_).chain'
  rintro a b ⟨hle, hne⟩
  rcases hle with h | ⟨h1, h2⟩
  · exact Or.inl h
  · refine Or.inr ⟨h1, lexLe_of_ne_of_not_lt _ _ h2 ?_⟩
    intro hd
    exact hne (String.ext hd)

/-- C6 counterexample: on a 4-byte input whose single decoded line
re-encodes to 6 bytes (as happens when the declared encoding adds a byte
order mark, e.g. utf-16 on a BOM-less UTF-16LE file), the loop emits 150
and completion appends 100, so the emitted sequence [150, 100] is not
non-decreasing and the claim fails as stated. -/
theorem claim6_counterexample :
    (count_keywords true [("ab", 6)] 4 none).percents = some [150, 100] ∧
    ¬ List.Chain' (· ≤ ·) [150, 100] := by
  refine ⟨by decide, ?_⟩
  intro h
  rw [List.chain'_cons] at h
  omega

/-- C6 amended: for every non-empty input whose cumulative re-encoded
byte count never exceeds the total size, the run completes, the loop's
emissions are strictly increasing and at most 100, the full emitted
sequence (loop emissions followed by the one unconditional final 100) is
non-decreasing, and it ends with 100. -/
theorem claim6_progress_amended (lines : List (String × Nat)) (total : Nat)
    (h0 : 0 < total) (hsum : (lines.map Prod.snd).sum ≤ total) :
    ∃ rows ps, count_keywords true lines total none = .ok rows (ps ++ [100]) ∧
      List.Chain' (· < ·) ps ∧ (∀ e ∈ ps, e ≤ 100) ∧
      List.Chain' (· ≤ ·) (ps ++ [100]) ∧
      (ps ++ [100]).getLast? = some 100 := by
  have h0' : total ≠ 0 := Nat.pos_iff_ne_zero.mp h0
  obtain ⟨st2, hrun, ⟨hchain, hle, hlast⟩, hbytes⟩ :=
    runLoopAux_ok total h0' lines initState
      ⟨List.chain'_nil, by simp [initState], by simp [initState]⟩
  have hb : st2.prog.bytes ≤ total := by
    rw [hbytes]
    simpa [initState] using hsum
  have h100 : ∀ e ∈ st2.prog.emits, e ≤ 100 := by
    intro e he
    have h1 : (e : Int) ≤ ((st2.prog.bytes * 100 / total : Nat) : Int) :=
      le_trans (hle e he) hlast
    have h2 : st2.prog.bytes * 100 / total ≤ 100 := by
      calc st2.prog.bytes * 100 / total ≤ total * 100 / total :=
            Nat.div_le_div_right (Nat.mul_le_mul_right 100 hb)
        _ = 100 := Nat.mul_div_cancel_left 100 h0
    have h3 : (e : Int) ≤ 100 := le_trans h1 (by exact_mod_cast h2)
    exact_mod_cast h3
  refine ⟨sorted_keywords st2.counts, st2.prog.emits, ?_, hchain, h100, ?_,
    List.getLast?_concat _⟩
  · show count_keywords true lines total none = _
    unfold count_keywords runLoop
    rw [if_neg (by simp), hrun]
  · refine List.Chain'.append (hchain.imp (fun a b h => le_of_lt h))
      (List.chain'_singleton 100) ?_
    intro x hx y hy
    rw [List.head?_cons, Option.mem_some_iff] at hy
    subst hy
    exact h100 x (List.mem_of_mem_getLast? hx)

theorem claim6_progress_amended_witness :
    ∃ rows ps,
      count_keywords true [("ab", 2), ("c", 1)] 4 none = .ok rows (ps ++ [100]) ∧
      List.Chain' (· < ·) ps ∧ (∀ e ∈ ps, e ≤ 100) ∧
      List.Chain' (· ≤ ·) (ps ++ [100]) ∧
      (ps ++ [100]).getLast? = some 100 :=
  claim6_progress_amended [("ab", 2), ("c", 1)] 4 (by decide) (by decide)

/-- C7: an I/O or decoding failure while streaming, after the existence
check passed, makes the run fail with the read-error message, whose text
names the encoding parameter as the possible cause; no report rows are
produced, and the outcome does not depend on the lines already consumed
(the accumulated partial frequency map is discarded). -/
theorem claim7_read_error (lines : List (String × Nat)) (total k : Nat) :
    count_keywords true lines total (some k) = .readError hintMsg ∧
    (count_keywords true lines total (some k)).rows = none ∧
    count_keywords true lines total (some k) = count_keywords true [] 0 (some 0) ∧
    mentionsEncoding hintMsg = true :=
  ⟨rfl, rfl, rfl, by decide⟩

/-- C8: a zero-byte input has no lines, so the loop body never runs, no
division by `total_size = 0` is evaluated (the model returns `ok`, not the
`ZeroDivisionError` branch), and the run completes reporting 100%. -/
theorem claim8_zero_size :
    count_keywords true [] 0 none = .ok [] [100] := by
  decide

/-- C9: a row (t, c) appears in the final report exactly when t was
accepted at least once and c is its number of accepted occurrences; in
particular every row's count is strictly positive and no row carries a
count of zero. -/
theorem claim9_report_rows (lines : List String) (t : String) (c : Nat) :
    ((t, c) ∈ report lines) ↔ (acceptedCount lines t = c ∧ 0 < c) := by
  rw [(report_perm lines).mem_iff]
  exact mem_processAll_iff lines t c

/-- C10: every candidate token produced by the per-line cleaning and
whitespace split is non-empty and differs from `=`, `{` and `}`, so the
defensive discard branches for empty tokens and operator residue are
unreachable: token processing reduces to the numeric test and the word
match. -/
theorem claim10_no_degenerate_tokens (line t : String) (ht : t ∈ tokenize line) :
    (t ≠ "" ∧ t ≠ "=" ∧ t ≠ "\x7b" ∧ t ≠ "\x7d") ∧
    ∀ m, countToken m t =
      if is_number t then m
      else if wordFullmatch t.data then incr m t else m := by
  obtain ⟨h0, h1, h2, h3⟩ := tokenize_tokens ht
  refine ⟨⟨h0, h1, h2, h3⟩, fun m => ?_⟩
  unfold countToken
  rw [if_neg h0, if_neg (by simp [h1, h2, h3])]

theorem claim10_witness :
    (("x" : String) ≠ "" ∧ ("x" : String) ≠ "=" ∧
      ("x" : String) ≠ "\x7b" ∧ ("x" : String) ≠ "\x7d") ∧
    countToken [] "x" =
      (if is_number "x" then []
       else if wordFullmatch "x".data then incr [] "x" else []) :=
  ⟨(claim10_no_degenerate_tokens "x = 1" "x" (by decide)).1,
   (claim10_no_degenerate_tokens "x = 1" "x" (by decide)).2 []⟩

end TokenCounter
